import Mathlib

/-!
Shallow embedding of the embeddings pipeline of rig-core
(src/rig-core/src/embeddings/builder.rs).

The code under verification is the EmbeddingsBuilder: it accumulates
(document, fragments) pairs and, on build, flattens them into tagged work
units, chunks the units by the model batch limit, calls the embedding model
on each chunk, folds the tagged results into a map keyed by document index,
and finally pairs each index back with its original document.

Conventions of the embedding:
- Asynchronous stream combinators are modelled as pure list functions; the
  dispatch/fold over chunks is modelled in submission order, which is one
  admissible completion order (order-dependence of the aggregation is
  treated separately via aggregateBatches over arbitrary batch orders).
- A Rust panic is modelled as the value none of an Option layer: the
  futures chunks combinator asserts a positive capacity, and the final
  pairing performs an unwrap.
- Rust f64 vectors carry no logical content in any claim; the vec field of
  an Embedding is modelled as a list of integers used only as an identity.
-/

/-- Modelled from the spec: EmbeddingError is the typed error returned by the
embedding capability (the EmbeddingError type lives outside src/); the spec
only requires it to be an opaque typed error, so it is a tagged message. -/
structure EmbeddingError where
  msg : String
deriving DecidableEq, Repr

/-- Embedding of rig: a vector plus the source document text it was computed
from (the f64 vector is modelled as a list of integers; no claim inspects
the numeric content). -/
structure Embedding where
  document : String
  vec : List Int
deriving DecidableEq, Repr

/-- Modelled from the spec: OneOrMany is the non-empty ordered collection of
rig-core (one_or_many.rs, not under src/): a first element plus the rest,
per the spec sentence that a DocumentResult is a non-empty ordered
collection whose first element initializes it and subsequent ones append. -/
structure OneOrMany (α : Type) where
  first : α
  rest : List α
deriving DecidableEq, Repr

/-- Modelled from the spec: the one constructor builds the collection holding
exactly the given element. -/
def OneOrMany.one {α : Type} (a : α) : OneOrMany α :=
  ⟨a, []⟩

/-- Modelled from the spec: add appends an element at the end of the
collection (Rust mutates in place; modelled functionally). -/
def OneOrMany.add {α : Type} (c : OneOrMany α) (a : α) : OneOrMany α :=
  ⟨c.first, c.rest ++ [a]⟩

/-- Elements of the collection in order, first element first; this is the
order the Rust IntoIterator yields. -/
def OneOrMany.toList {α : Type} (c : OneOrMany α) : List α :=
  c.first :: c.rest

/-- Number of elements held by the collection. -/
def OneOrMany.size {α : Type} (c : OneOrMany α) : Nat :=
  c.toList.length

/-- Modelled from the spec: the embedding capability (EmbeddingModel trait,
not under src/): a batch-size limit MAX_DOCUMENTS plus a fallible batch
call embed_documents returning one embedding per input on success. The
length-preserving contract of the trait is stated as a hypothesis where a
claim needs it, never assumed globally. -/
structure EmbeddingModel where
  MAX_DOCUMENTS : Nat
  embed_documents : List String → Except EmbeddingError (List Embedding)

/-- EmbeddingsBuilder of builder.rs: the model is passed separately to the
operations, so the builder state is its ordered document list of
(document, extracted fragment collection) pairs. -/
structure EmbeddingsBuilder (D : Type) where
  documents : List (D × OneOrMany String)
deriving DecidableEq, Repr

/-- EmbeddingsBuilder.new (builder.rs lines 83-88): empty document list. -/
def EmbeddingsBuilder.new (D : Type) : EmbeddingsBuilder D :=
  ⟨[]⟩

/-- EmbeddingsBuilder.document (builder.rs lines 91-96): run the extraction
capability (the embeddable method of the document, passed here as the
function embeddable) and on success push the pair; the push happens only
after the question-mark operator, so a failed extraction returns the error
with nothing appended. -/
def EmbeddingsBuilder.document {D Err : Type}
    (b : EmbeddingsBuilder D) (embeddable : D → Except Err (OneOrMany String))
    (doc : D) : Except Err (EmbeddingsBuilder D) :=
  match embeddable doc with
  | Except.error e => Except.error e
  | Except.ok embed_targets => Except.ok ⟨b.documents ++ [(doc, embed_targets)]⟩

/-- EmbeddingsBuilder.documents (builder.rs lines 99-107): fold document
over the list, stopping at the first extraction failure. -/
def EmbeddingsBuilder.addDocuments {D Err : Type}
    (b : EmbeddingsBuilder D) (embeddable : D → Except Err (OneOrMany String)) :
    List D → Except Err (EmbeddingsBuilder D)
  | [] => Except.ok b
  | doc :: rest =>
    match b.document embeddable doc with
    | Except.error e => Except.error e
    | Except.ok b2 => b2.addDocuments embeddable rest

/-- Flatten step of build (builder.rs lines 124-133): enumerate the document
list and expand each document into its fragments, each tagged with the
positional index of the owning document. -/
def flattenUnits {D : Type} (docs : List (D × OneOrMany String)) :
    List (Nat × String) :=
  docs.enum.flatMap (fun p => p.2.2.toList.map (fun target => (p.1, target)))

/-- Chunk step worker mirroring the buffering of the futures chunks
combinator: items are pushed into the current buffer buf and a chunk is
emitted as soon as the buffer reaches the capacity n; the trailing partial
buffer is emitted at the end. -/
def chunkGo {α : Type} (n : Nat) : List α → List α → List (List α)
  | buf, [] => if buf.isEmpty then [] else [buf]
  | buf, x :: xs =>
    if buf.length + 1 = n then (buf ++ [x]) :: chunkGo n [] xs
    else chunkGo n (buf ++ [x]) xs

/-- Chunk step of build (builder.rs line 135): the futures chunks combinator
asserts a positive capacity and panics when the capacity is zero; the panic
is modelled as none. -/
def chunkStream {α : Type} (n : Nat) (l : List α) : Option (List (List α)) :=
  if 0 < n then some (chunkGo n [] l) else none

/-- Per-chunk embedding call (builder.rs lines 137-146): unzip the chunk
into indices and targets, call embed_documents on the targets and zip the
indices back with the returned embeddings positionally (the Rust zip stops
at the shorter side). -/
def embedChunk (model : EmbeddingModel)
    (chunk : List (Nat × String)) :
    Except EmbeddingError (List (Nat × Embedding)) :=
  match model.embed_documents chunk.unzip.2 with
  | Except.error e => Except.error e
  | Except.ok es => Except.ok (chunk.unzip.1.zip es)

/-- Entry step of the aggregation fold (builder.rs lines 153-157): the Rust
code is acc.entry(i).or_insert(OneOrMany::one(e)).add(e) — when the key is
absent it inserts the singleton and then ALSO appends the same embedding to
the value or_insert returns; when the key is present it appends. The
HashMap is modelled as an association list with distinct keys kept in first
insertion order. -/
def mapInsert (m : List (Nat × OneOrMany Embedding)) (i : Nat)
    (e : Embedding) : List (Nat × OneOrMany Embedding) :=
  match m with
  | [] => [(i, (OneOrMany.one e).add e)]
  | (j, v) :: rest =>
    if j = i then (j, v.add e) :: rest else (j, v) :: mapInsert rest i e

/-- Body of the try_fold accumulator (builder.rs lines 152-160): fold every
(index, embedding) pair of one completed batch into the map. -/
def foldPairs (acc : List (Nat × OneOrMany Embedding))
    (pairs : List (Nat × Embedding)) : List (Nat × OneOrMany Embedding) :=
  pairs.foldl (fun a p => mapInsert a p.1 p.2) acc

/-- Aggregation of already-computed batch results in a given arrival order
(the try_fold of builder.rs lines 150-161 applied to successful batches):
used to study dependence of the fold on batch completion order. -/
def aggregateBatches (batches : List (List (Nat × Embedding))) :
    List (Nat × OneOrMany Embedding) :=
  batches.foldl foldPairs []

/-- Dispatch plus try_fold (builder.rs lines 137-161) in submission order:
call the model on each chunk in turn, folding successful results and
aborting with the first observed error, as try_fold does. -/
def tryFoldChunks (model : EmbeddingModel) :
    List (List (Nat × String)) → List (Nat × OneOrMany Embedding) →
    Except EmbeddingError (List (Nat × OneOrMany Embedding))
  | [], acc => Except.ok acc
  | c :: cs, acc =>
    match embedChunk model c with
    | Except.error e => Except.error e
    | Except.ok pairs => tryFoldChunks model cs (foldPairs acc pairs)

/-- Lookup in the documents_map of builder.rs lines 116-122: the map built
from the enumerated document list, keyed by index. -/
def lookupDoc {D : Type} (docs : List (D × OneOrMany String)) (i : Nat) :
    Option D :=
  (docs.enum.find? (fun p => p.1 = i)).map (fun p => p.2.1)

/-- Final pairing fold of builder.rs lines 163-170: each aggregated entry is
joined back with its original document; the unwrap on the lookup is
modelled as the Option layer (none = panic). -/
def pairResults {D : Type} (docs : List (D × OneOrMany String)) :
    List (Nat × OneOrMany Embedding) → Option (List (D × OneOrMany Embedding))
  | [] => some []
  | p :: rest =>
    match lookupDoc docs p.1 with
    | none => none
    | some d =>
      match pairResults docs rest with
      | none => none
      | some acc => some ((d, p.2) :: acc)

/-- EmbeddingsBuilder.build (builder.rs lines 114-173): flatten, chunk by
MAX_DOCUMENTS (panic when zero), embed chunk by chunk with fail-fast error
propagation, aggregate by document index, and pair indices back with the
original documents. The outer Option models panic-freedom, the inner Except
is the Result returned by build. -/
def EmbeddingsBuilder.build {D : Type} (model : EmbeddingModel)
    (b : EmbeddingsBuilder D) :
    Option (Except EmbeddingError (List (D × OneOrMany Embedding))) :=
  match chunkStream model.MAX_DOCUMENTS (flattenUnits b.documents) with
  | none => none
  | some cs =>
    match tryFoldChunks model cs [] with
    | Except.error e => some (Except.error e)
    | Except.ok agg =>
      match pairResults b.documents agg with
      | none => none
      | some res => some (Except.ok res)

/-! ### Lemmas about the chunk step -/

theorem chunkGo_flatten {α : Type} (n : Nat) (l buf : List α)
    (hb : buf.length < n) : (chunkGo n buf l).flatten = buf ++ l := by
  induction l generalizing buf with
  | nil =>
    cases buf <;> simp [chunkGo]
  | cons x xs ih =>
    simp only [chunkGo]
    by_cases h : buf.length + 1 = n
    · rw [if_pos h]
      have h0 : (([] : List α)).length < n := by simp; omega
      simp [List.flatten, ih [] h0]
    · rw [if_neg h]
      have h1 : (buf ++ [x]).length < n := by
        simp [List.length_append] at *
        omega
      rw [ih (buf ++ [x]) h1]
      simp

theorem chunkGo_length_le {α : Type} (n : Nat) (l buf : List α)
    (hb : buf.length < n) : ∀ c ∈ chunkGo n buf l, c.length ≤ n := by
  induction l generalizing buf with
  | nil =>
    intro c hc
    cases buf with
    | nil => simp [chunkGo] at hc
    | cons b bs =>
      simp [chunkGo] at hc
      subst hc
      exact Nat.le_of_lt hb
  | cons x xs ih =>
    intro c hc
    simp only [chunkGo] at hc
    by_cases h : buf.length + 1 = n
    · rw [if_pos h] at hc
      rcases List.mem_cons.mp hc with h1 | h1
      · subst h1
        simp [List.length_append]
        omega
      · exact ih [] (by simp; omega) c h1
    · rw [if_neg h] at hc
      have h1 : (buf ++ [x]).length < n := by
        simp [List.length_append] at *
        omega
      exact ih (buf ++ [x]) h1 c hc

theorem chunkGo_full_of_not_last {α : Type} (n : Nat) (l buf : List α)
    (hb : buf.length < n) :
    ∀ i c, i + 1 < (chunkGo n buf l).length →
      (chunkGo n buf l).get? i = some c → c.length = n := by
  induction l generalizing buf with
  | nil =>
    intro i c h hc
    exfalso
    cases buf with
    | nil => simp [chunkGo] at h
    | cons b bs => simp [chunkGo] at h
  | cons x xs ih =>
    intro i c h hc
    simp only [chunkGo] at h hc
    by_cases hfull : buf.length + 1 = n
    · rw [if_pos hfull] at h hc
      cases i with
      | zero =>
        simp at hc
        subst hc
        simp [List.length_append]
        omega
      | succ j =>
        have h2 : j + 1 < (chunkGo n [] xs).length := by
          simp [List.length_cons] at h
          omega
        simp only [List.get?_cons_succ] at hc
        exact ih [] (by simp; omega) j c h2 hc
    · rw [if_neg hfull] at h hc
      have h1 : (buf ++ [x]).length < n := by
        simp [List.length_append] at *
        omega
      exact ih (buf ++ [x]) h1 i c h hc

theorem mem_of_mem_chunkGo {α : Type} (n : Nat) (hn : 0 < n) (l : List α)
    {c : List α} {x : α} (hc : c ∈ chunkGo n [] l) (hx : x ∈ c) : x ∈ l := by
  have hj : x ∈ (chunkGo n [] l).flatten := List.mem_flatten.mpr ⟨c, hc, hx⟩
  rwa [chunkGo_flatten n l [] (by simpa using hn)] at hj

/-- C2: chunking is a deterministic lossless partition: for every work-unit
sequence and every maximum batch size n at least 1, the chunk step succeeds
and returns consecutive sub-sequences whose concatenation is the input,
each of size at most n, and every chunk other than the final one has size
exactly n. -/
theorem chunking_lossless_partition {α : Type} (n : Nat) (l : List α)
    (hn : 0 < n) :
    chunkStream n l = some (chunkGo n [] l) ∧
    (chunkGo n [] l).flatten = l ∧
    (∀ c ∈ chunkGo n [] l, c.length ≤ n) ∧
    (∀ i (h : i + 1 < (chunkGo n [] l).length),
      ((chunkGo n [] l).get ⟨i, Nat.lt_of_succ_lt h⟩).length = n) := by
  refine ⟨by simp [chunkStream, hn], ?_, ?_, ?_⟩
  · simpa using chunkGo_flatten n l [] (by simpa using hn)
  · exact chunkGo_length_le n l [] (by simpa using hn)
  · intro i h
    refine chunkGo_full_of_not_last n l [] (by simpa using hn) i _ h ?_
    exact List.get?_eq_get (Nat.lt_of_succ_lt h)

/-- Witness for C2 at the batch size 4 and the six work units of the spec
scenario: chunks of sizes 4 and 2 whose concatenation is the input. -/
theorem chunking_lossless_partition_witness :
    0 < 4 ∧
    (chunkStream 4 [(0, "a"), (0, "b"), (1, "c"), (1, "d"), (2, "e"), (2, "f")] =
      some (chunkGo 4 [] [(0, "a"), (0, "b"), (1, "c"), (1, "d"), (2, "e"), (2, "f")]) ∧
    (chunkGo 4 [] [(0, "a"), (0, "b"), (1, "c"), (1, "d"), (2, "e"), (2, "f")]).flatten =
      [(0, "a"), (0, "b"), (1, "c"), (1, "d"), (2, "e"), (2, "f")] ∧
    (∀ c ∈ chunkGo 4 [] [(0, "a"), (0, "b"), (1, "c"), (1, "d"), (2, "e"), (2, "f")],
      c.length ≤ 4) ∧
    (∀ i (h : i + 1 <
        (chunkGo 4 [] [(0, "a"), (0, "b"), (1, "c"), (1, "d"), (2, "e"), (2, "f")]).length),
      ((chunkGo 4 [] [(0, "a"), (0, "b"), (1, "c"), (1, "d"), (2, "e"), (2, "f")]).get
        ⟨i, Nat.lt_of_succ_lt h⟩).length = 4)) :=
  ⟨by decide,
    chunking_lossless_partition 4
      [((0 : Nat), "a"), (0, "b"), (1, "c"), (1, "d"), (2, "e"), (2, "f")] (by decide)⟩

/-! ### Flatten: refinement against the spec wording -/

/-- Written from the spec words (section 4.2 step 1): concatenate, for each
document in list order, its fragments in stored order, each tagged with the
identifier of the owning document; the document at position p of the
remaining list, counting identifiers from k, is tagged k + p. -/
def specFlattenFrom {D : Type} (k : Nat) :
    List (D × OneOrMany String) → List (Nat × String)
  | [] => []
  | d :: rest => d.2.toList.map (fun t => (k, t)) ++ specFlattenFrom (k + 1) rest

/-- Written from the spec words: the flattened work-unit sequence, with
positional identifiers starting at 0. -/
def specFlatten {D : Type} (docs : List (D × OneOrMany String)) :
    List (Nat × String) :=
  specFlattenFrom 0 docs

theorem enumFrom_flatMap_eq_specFlattenFrom {D : Type}
    (docs : List (D × OneOrMany String)) (k : Nat) :
    (List.enumFrom k docs).flatMap
      (fun p => p.2.2.toList.map (fun target => (p.1, target))) =
    specFlattenFrom k docs := by
  induction docs generalizing k with
  | nil => rfl
  | cons d rest ih =>
    simp only [List.enumFrom_cons, List.flatMap_cons, specFlattenFrom, ih]

/-- C5: the flatten step of build equals, document for document, the
spec-side description: the concatenation over documents in list order of
each document's fragments in stored order, each fragment tagged with the
positional identifier of its owning document. -/
theorem flatten_order_and_tag_correct {D : Type}
    (docs : List (D × OneOrMany String)) :
    flattenUnits docs = specFlatten docs := by
  unfold flattenUnits specFlatten
  rw [show docs.enum = List.enumFrom 0 docs from rfl]
  exact enumFrom_flatMap_eq_specFlattenFrom docs 0

/-! ### addDocument atomicity (C7) -/

/-- C7: addDocument is atomic on failure: when extraction of the object
fails the call returns exactly the extraction error (no updated builder
with an extended list exists), and on success the returned builder's
document list is the old list with the single (object, fragments) pair
appended at the end. -/
theorem document_atomic {D Err : Type} (b : EmbeddingsBuilder D)
    (embeddable : D → Except Err (OneOrMany String)) (doc : D) :
    (∀ e, embeddable doc = Except.error e →
      b.document embeddable doc = Except.error e) ∧
    (∀ ts, embeddable doc = Except.ok ts →
      b.document embeddable doc =
        Except.ok ⟨b.documents ++ [(doc, ts)]⟩) := by
  constructor <;> intro a h <;> simp [EmbeddingsBuilder.document, h]

/-- Witness for C7: extraction that yields zero fragments fails, and the
call on a builder holding one document returns exactly that error. -/
theorem document_atomic_witness :
    EmbeddingsBuilder.document
      (⟨[("d0", ⟨"a", []⟩)]⟩ : EmbeddingsBuilder String)
      (fun _ => Except.error (⟨"zero fragments"⟩ : EmbeddingError)) "d1" =
      Except.error ⟨"zero fragments"⟩ :=
  (document_atomic (⟨[("d0", ⟨"a", []⟩)]⟩ : EmbeddingsBuilder String)
    (fun _ => Except.error (⟨"zero fragments"⟩ : EmbeddingError)) "d1").1
    ⟨"zero fragments"⟩ rfl

/-! ### Zero batch-size limit (C4) -/

/-- Counterexample for C4: with a reported batch limit of 0 and a one-
fragment builder, build does not proceed: the chunks combinator asserts a
positive capacity and the call panics (modelled as none), instead of
batching by 1. -/
theorem build_zero_limit_counterexample :
    EmbeddingsBuilder.build
      ⟨0, fun ts => Except.ok (ts.map (fun t => ⟨t, [0]⟩))⟩
      (⟨[("d0", ⟨"a", []⟩)]⟩ : EmbeddingsBuilder String) = none := rfl

/-- C4 amended: the max(1, 1024 / MAX_DOCUMENTS) guard of builder.rs line
149 applies only to the concurrency bound; the chunk step of line 135 uses
the reported limit directly, so a reported limit of 0 makes every build
panic (the futures chunks combinator asserts a positive capacity) rather
than proceed with batches of size 1. -/
theorem build_zero_limit_panics {D : Type} (model : EmbeddingModel)
    (b : EmbeddingsBuilder D) (h : model.MAX_DOCUMENTS = 0) :
    EmbeddingsBuilder.build model b = none := by
  unfold EmbeddingsBuilder.build chunkStream
  rw [h]
  simp

/-- Witness for C4 amended at a concrete zero-limit model and a one-document
builder. -/
theorem build_zero_limit_panics_witness :
    EmbeddingsBuilder.build
      ⟨0, fun _ => Except.ok []⟩
      (⟨[("d0", ⟨"a", ["b"]⟩)]⟩ : EmbeddingsBuilder String) = none :=
  build_zero_limit_panics ⟨0, fun _ => Except.ok []⟩
    ⟨[("d0", ⟨"a", ["b"]⟩)]⟩ rfl

/-! ### The aggregation duplicates the first embedding of each document (C1) -/

/-- C1 evaluated at the spec's own scenario (3 documents of 2 fragments
each, batch limit 4, an echoing model): build succeeds but every document
is attributed 3 embeddings, not 2 — the or_insert(..).add(..) fold of
builder.rs lines 153-157 first inserts the singleton collection and then
appends the same embedding again, duplicating the first embedding of every
document. -/
theorem build_scenario_duplicates_first_embedding :
    EmbeddingsBuilder.build
      ⟨4, fun ts => Except.ok (ts.map (fun t => ⟨t, [0]⟩))⟩
      (⟨[("d0", ⟨"a", ["b"]⟩), ("d1", ⟨"c", ["d"]⟩), ("d2", ⟨"e", ["f"]⟩)]⟩ :
        EmbeddingsBuilder String) =
      some (Except.ok
        [("d0", ⟨⟨"a", [0]⟩, [⟨"a", [0]⟩, ⟨"b", [0]⟩]⟩),
         ("d1", ⟨⟨"c", [0]⟩, [⟨"c", [0]⟩, ⟨"d", [0]⟩]⟩),
         ("d2", ⟨⟨"e", [0]⟩, [⟨"e", [0]⟩, ⟨"f", [0]⟩]⟩)]) ∧
    OneOrMany.size (⟨⟨"a", [0]⟩, [⟨"a", [0]⟩, ⟨"b", [0]⟩]⟩ : OneOrMany Embedding) = 3 := by
  exact ⟨rfl, rfl⟩

/-! ### Lemmas about the aggregation fold -/

theorem OneOrMany.toList_add {α : Type} (c : OneOrMany α) (a : α) :
    (c.add a).toList = c.toList ++ [a] := by
  simp [OneOrMany.add, OneOrMany.toList]

theorem OneOrMany.toList_one {α : Type} (a : α) :
    (OneOrMany.one a).toList = [a] := rfl

theorem mapInsert_mem_origin (m : List (Nat × OneOrMany Embedding)) (i : Nat)
    (e : Embedding) :
    ∀ p ∈ mapInsert m i e, ∀ x ∈ OneOrMany.toList p.2,
      (∃ c0, (p.1, c0) ∈ m ∧ x ∈ OneOrMany.toList c0) ∨ (x = e ∧ p.1 = i) := by
  induction m with
  | nil =>
    intro p hp x hx
    simp [mapInsert] at hp
    subst hp
    right
    simp [OneOrMany.toList_add, OneOrMany.toList_one] at hx
    exact ⟨hx, rfl⟩
  | cons hd rest ih =>
    intro p hp x hx
    obtain ⟨j, v⟩ := hd
    simp only [mapInsert] at hp
    by_cases hj : j = i
    · rw [if_pos hj] at hp
      rcases List.mem_cons.mp hp with h1 | h1
      · subst h1
        rw [OneOrMany.toList_add] at hx
        rcases List.mem_append.mp hx with hx1 | hx1
        · exact Or.inl ⟨v, List.mem_cons_self _ _, hx1⟩
        · right
          refine ⟨by simpa using hx1, hj⟩
      · exact Or.inl ⟨p.2, List.mem_cons_of_mem _ h1, hx⟩
    · rw [if_neg hj] at hp
      rcases List.mem_cons.mp hp with h1 | h1
      · subst h1
        exact Or.inl ⟨v, List.mem_cons_self _ _, hx⟩
      · rcases ih p h1 x hx with ⟨c0, hc0, hxc⟩ | hr
        · exact Or.inl ⟨c0, List.mem_cons_of_mem _ hc0, hxc⟩
        · exact Or.inr hr

theorem mapInsert_keys (m : List (Nat × OneOrMany Embedding)) (i : Nat)
    (e : Embedding) (k : Nat) :
    k ∈ (mapInsert m i e).map Prod.fst ↔ k ∈ m.map Prod.fst ∨ k = i := by
  induction m with
  | nil => simp [mapInsert]
  | cons hd rest ih =>
    obtain ⟨j, v⟩ := hd
    simp only [mapInsert]
    by_cases hj : j = i
    · subst hj
      simp
      tauto
    · rw [if_neg hj]
      simp [ih]
      tauto

theorem foldPairs_mem_origin (pairs : List (Nat × Embedding)) :
    ∀ acc p, p ∈ foldPairs acc pairs → ∀ x ∈ OneOrMany.toList p.2,
      (∃ c0, (p.1, c0) ∈ acc ∧ x ∈ OneOrMany.toList c0) ∨ (p.1, x) ∈ pairs := by
  induction pairs with
  | nil =>
    intro acc p hp x hx
    exact Or.inl ⟨p.2, hp, hx⟩
  | cons q qs ih =>
    intro acc p hp x hx
    have hp2 : p ∈ foldPairs (mapInsert acc q.1 q.2) qs := hp
    rcases ih (mapInsert acc q.1 q.2) p hp2 x hx with ⟨c0, hc0, hxc⟩ | hin
    · rcases mapInsert_mem_origin acc q.1 q.2 (p.1, c0) hc0 x hxc with
        ⟨c1, hc1, hxc1⟩ | ⟨hxe, hpi⟩
      · exact Or.inl ⟨c1, hc1, hxc1⟩
      · right
        have : (p.1, x) = q := by
          rw [hxe, hpi]
        rw [this]
        exact List.mem_cons_self _ _
    · exact Or.inr (List.mem_cons_of_mem _ hin)

theorem foldPairs_keys (pairs : List (Nat × Embedding)) :
    ∀ acc k, k ∈ (foldPairs acc pairs).map Prod.fst ↔
      k ∈ acc.map Prod.fst ∨ k ∈ pairs.map Prod.fst := by
  induction pairs with
  | nil => intro acc k; simp [foldPairs]
  | cons q qs ih =>
    intro acc k
    have h1 : foldPairs acc (q :: qs) = foldPairs (mapInsert acc q.1 q.2) qs := rfl
    rw [h1, ih, mapInsert_keys]
    simp
    tauto

theorem foldlBatches_mem_origin (bs : List (List (Nat × Embedding))) :
    ∀ acc p, p ∈ List.foldl foldPairs acc bs → ∀ x ∈ OneOrMany.toList p.2,
      (∃ c0, (p.1, c0) ∈ acc ∧ x ∈ OneOrMany.toList c0) ∨
        ∃ b ∈ bs, (p.1, x) ∈ b := by
  induction bs with
  | nil =>
    intro acc p hp x hx
    exact Or.inl ⟨p.2, hp, hx⟩
  | cons b bs ih =>
    intro acc p hp x hx
    rcases ih (foldPairs acc b) p hp x hx with ⟨c0, hc0, hxc⟩ | ⟨b2, hb2, hxb⟩
    · rcases foldPairs_mem_origin b acc (p.1, c0) hc0 x hxc with
        ⟨c1, hc1, hxc1⟩ | hin
      · exact Or.inl ⟨c1, hc1, hxc1⟩
      · exact Or.inr ⟨b, List.mem_cons_self _ _, hin⟩
    · exact Or.inr ⟨b2, List.mem_cons_of_mem _ hb2, hxb⟩

theorem foldlBatches_keys (bs : List (List (Nat × Embedding))) :
    ∀ acc k, k ∈ (List.foldl foldPairs acc bs).map Prod.fst ↔
      k ∈ acc.map Prod.fst ∨ ∃ b ∈ bs, k ∈ b.map Prod.fst := by
  induction bs with
  | nil => intro acc k; simp
  | cons b bs ih =>
    intro acc k
    rw [List.foldl_cons, ih, foldPairs_keys]
    simp
    tauto

/-- Counterexample for C6: the same two batches folded in the two possible
completion orders yield different aggregated results (even as multisets per
document, because the first-arriving embedding of a document is inserted
twice), although the two batch lists are permutations of one another. -/
theorem aggregation_order_dependent_counterexample :
    aggregateBatches [[(0, ⟨"a", [0]⟩)], [(0, ⟨"b", [1]⟩)]] ≠
      aggregateBatches [[(0, ⟨"b", [1]⟩)], [(0, ⟨"a", [0]⟩)]] ∧
    ([[((0 : Nat), (⟨"a", [0]⟩ : Embedding))], [(0, ⟨"b", [1]⟩)]]).Perm
      [[(0, ⟨"b", [1]⟩)], [(0, ⟨"a", [0]⟩)]] := by
  constructor
  · decide
  · exact List.Perm.swap _ _ _

/-- C6 amended: aggregation is keyed by DocumentId, so in every batch
arrival order each embedding in a document's aggregated collection comes
from a work unit tagged with that document's id, and the set of document
ids present in the result is independent of the arrival order; the
aggregated collections themselves, however, do depend on the order (see the
counterexample), both in element order and, through the first-insert
duplication, in multiplicity. -/
theorem aggregation_keyed_by_document_id :
    (∀ (batches : List (List (Nat × Embedding))) p, p ∈ aggregateBatches batches →
      ∀ x ∈ OneOrMany.toList p.2, (p.1, x) ∈ batches.flatten) ∧
    (∀ (batches batchesPerm : List (List (Nat × Embedding))),
      batches.Perm batchesPerm → ∀ k,
        (k ∈ (aggregateBatches batches).map Prod.fst ↔
          k ∈ (aggregateBatches batchesPerm).map Prod.fst)) := by
  constructor
  · intro batches p hp x hx
    rcases foldlBatches_mem_origin batches [] p hp x hx with ⟨c0, hc0, _⟩ | ⟨b, hb, hxb⟩
    · simp at hc0
    · exact List.mem_flatten.mpr ⟨b, hb, hxb⟩
  · intro bs bs2 hperm k
    show k ∈ (List.foldl foldPairs [] bs).map Prod.fst ↔
      k ∈ (List.foldl foldPairs [] bs2).map Prod.fst
    rw [foldlBatches_keys, foldlBatches_keys]
    simp only [List.map_nil, List.not_mem_nil, false_or]
    exact ⟨fun ⟨b, hb, hkb⟩ => ⟨b, hperm.mem_iff.mp hb, hkb⟩,
      fun ⟨b, hb, hkb⟩ => ⟨b, hperm.mem_iff.mpr hb, hkb⟩⟩

/-- Witness for C6 amended: in a one-batch aggregation the embedding
attributed to document 0 indeed comes from a work unit tagged 0. -/
theorem aggregation_keyed_by_document_id_witness :
    ((0 : Nat), (⟨"a", [0]⟩ : Embedding)) ∈
      ([[(0, ⟨"a", [0]⟩)]] : List (List (Nat × Embedding))).flatten :=
  aggregation_keyed_by_document_id.1 [[(0, ⟨"a", [0]⟩)]]
    (0, ⟨⟨"a", [0]⟩, [⟨"a", [0]⟩]⟩) (by decide) ⟨"a", [0]⟩ (by decide)

/-! ### Fail-fast error propagation (C3) -/

theorem tryFoldChunks_error_of_mem (model : EmbeddingModel) :
    ∀ (cs : List (List (Nat × String))) acc,
      (∃ c ∈ cs, ∃ e, model.embed_documents c.unzip.2 = Except.error e) →
      ∃ e, tryFoldChunks model cs acc = Except.error e ∧
        ∃ c ∈ cs, model.embed_documents c.unzip.2 = Except.error e := by
  intro cs
  induction cs with
  | nil =>
    intro acc h
    rcases h with ⟨c, hc, _⟩
    simp at hc
  | cons c0 cs ih =>
    intro acc h
    cases hemb : model.embed_documents c0.unzip.2 with
    | error e =>
      refine ⟨e, ?_, ⟨c0, List.mem_cons_self _ _, hemb⟩⟩
      have hemb2 : model.embed_documents (List.map Prod.snd c0) = Except.error e := by
        rw [← List.unzip_snd]
        exact hemb
      have hec : embedChunk model c0 = Except.error e := by
        simp [embedChunk, hemb2]
      simp [tryFoldChunks, hec]
    | ok es =>
      rcases h with ⟨c, hc, e, he⟩
      rcases List.mem_cons.mp hc with rfl | hc2
      · rw [hemb] at he
        cases he
      · rcases ih (foldPairs acc (c0.unzip.1.zip es)) ⟨c, hc2, e, he⟩ with
          ⟨e2, htf, c2, hc2m, he2⟩
        refine ⟨e2, ?_, ⟨c2, List.mem_cons_of_mem _ hc2m, he2⟩⟩
        have hemb2 : model.embed_documents (List.map Prod.snd c0) = Except.ok es := by
          rw [← List.unzip_snd]
          exact hemb
        have hec : embedChunk model c0 = Except.ok (c0.unzip.1.zip es) := by
          simp [embedChunk, hemb2]
        simpa [tryFoldChunks, hec] using htf

/-- C3: build is all-or-nothing: whenever some batch call of the dispatched
chunks fails, build returns an embedding error produced by one of the
failing batch calls as its sole outcome (the Except value carries no
partial BuildResult next to the error). -/
theorem build_fail_fast {D : Type} (model : EmbeddingModel)
    (b : EmbeddingsBuilder D) (h0 : 0 < model.MAX_DOCUMENTS)
    (hfail : ∃ c ∈ chunkGo model.MAX_DOCUMENTS [] (flattenUnits b.documents),
      ∃ e, model.embed_documents c.unzip.2 = Except.error e) :
    ∃ e, EmbeddingsBuilder.build model b = some (Except.error e) ∧
      ∃ c ∈ chunkGo model.MAX_DOCUMENTS [] (flattenUnits b.documents),
        model.embed_documents c.unzip.2 = Except.error e := by
  rcases tryFoldChunks_error_of_mem model
      (chunkGo model.MAX_DOCUMENTS [] (flattenUnits b.documents)) [] hfail with
    ⟨e, htf, hwit⟩
  refine ⟨e, ?_, hwit⟩
  simp only [EmbeddingsBuilder.build, chunkStream, if_pos h0]
  rw [htf]

/-- Witness for C3: a model that fails every batch call makes build on a
one-fragment builder return that error. -/
theorem build_fail_fast_witness :
    ∃ e, EmbeddingsBuilder.build
        ⟨4, fun _ => Except.error ⟨"boom"⟩⟩
        (⟨[("d0", ⟨"a", []⟩)]⟩ : EmbeddingsBuilder String) =
        some (Except.error e) ∧
      ∃ c ∈ chunkGo 4 []
          (flattenUnits
            ((⟨[("d0", ⟨"a", []⟩)]⟩ : EmbeddingsBuilder String)).documents),
        (fun (_ : List String) =>
          Except.error (⟨"boom"⟩ : EmbeddingError) (α := List Embedding))
          c.unzip.2 = Except.error e :=
  build_fail_fast ⟨4, fun _ => Except.error ⟨"boom"⟩⟩
    ⟨[("d0", ⟨"a", []⟩)]⟩ (by decide)
    ⟨[(0, "a")], by decide, ⟨"boom"⟩, rfl⟩

/-! ### Keys of the aggregation are valid document indices (C10) -/

theorem mem_enumFrom_fst_lt {β : Type} (l : List β) :
    ∀ (k : Nat) (p : Nat × β), p ∈ List.enumFrom k l → p.1 < k + l.length := by
  induction l with
  | nil => intro k p hp; simp at hp
  | cons x xs ih =>
    intro k p hp
    rw [List.enumFrom_cons] at hp
    rcases List.mem_cons.mp hp with rfl | hp2
    · simp
    · have := ih (k + 1) p hp2
      simp at this ⊢
      omega

theorem flattenUnits_fst_lt {D : Type} (docs : List (D × OneOrMany String))
    (q : Nat × String) (hq : q ∈ flattenUnits docs) : q.1 < docs.length := by
  unfold flattenUnits at hq
  rcases List.mem_flatMap.mp hq with ⟨p, hp, hq2⟩
  rcases List.mem_map.mp hq2 with ⟨t, _, rfl⟩
  have h := mem_enumFrom_fst_lt docs 0 p hp
  simpa using h

theorem exists_mem_enumFrom {β : Type} (l : List β) :
    ∀ (k i : Nat), i < l.length → ∃ b, (k + i, b) ∈ List.enumFrom k l := by
  induction l with
  | nil => intro k i hi; simp at hi
  | cons x xs ih =>
    intro k i hi
    cases i with
    | zero => exact ⟨x, by simp [List.enumFrom_cons]⟩
    | succ j =>
      rcases ih (k + 1) j (by simpa using Nat.lt_of_succ_lt_succ hi) with ⟨b, hb⟩
      refine ⟨b, ?_⟩
      have harith : k + (j + 1) = (k + 1) + j := by omega
      rw [List.enumFrom_cons, harith]
      exact List.mem_cons_of_mem _ hb

theorem lookupDoc_isSome {D : Type} (docs : List (D × OneOrMany String))
    (i : Nat) (hi : i < docs.length) : (lookupDoc docs i).isSome := by
  rcases exists_mem_enumFrom docs 0 i (by simpa using hi) with ⟨b, hb⟩
  have h1 : (docs.enum.find? (fun p => p.1 = i)).isSome :=
    List.find?_isSome.mpr ⟨(0 + i, b), hb, by simp⟩
  cases hf : docs.enum.find? (fun p => p.1 = i) with
  | none => rw [hf] at h1; cases h1
  | some p => simp [lookupDoc, hf]

theorem pairResults_isSome {D : Type} (docs : List (D × OneOrMany String)) :
    ∀ agg, (∀ p ∈ agg, p.1 < docs.length) → (pairResults docs agg).isSome := by
  intro agg
  induction agg with
  | nil => intro _; simp [pairResults]
  | cons p rest ih =>
    intro h
    have h1 : (lookupDoc docs p.1).isSome :=
      lookupDoc_isSome docs p.1 (h p (List.mem_cons_self _ _))
    cases hl : lookupDoc docs p.1 with
    | none => rw [hl] at h1; cases h1
    | some d =>
      have h2 := ih (fun q hq => h q (List.mem_cons_of_mem _ hq))
      cases hr : pairResults docs rest with
      | none => rw [hr] at h2; cases h2
      | some acc => simp [pairResults, hl, hr]

theorem tryFoldChunks_ok_keys (model : EmbeddingModel) :
    ∀ (cs : List (List (Nat × String))) acc agg,
      tryFoldChunks model cs acc = Except.ok agg →
      ∀ k, k ∈ agg.map Prod.fst →
        k ∈ acc.map Prod.fst ∨ ∃ c ∈ cs, k ∈ c.map Prod.fst := by
  intro cs
  induction cs with
  | nil =>
    intro acc agg h k hk
    left
    cases h
    exact hk
  | cons c cs ih =>
    intro acc agg h k hk
    cases hemb : model.embed_documents (List.map Prod.snd c) with
    | error e =>
      have hec : embedChunk model c = Except.error e := by
        simp [embedChunk, hemb]
      rw [show tryFoldChunks model (c :: cs) acc =
          match embedChunk model c with
          | Except.error e => Except.error e
          | Except.ok pairs => tryFoldChunks model cs (foldPairs acc pairs)
        from rfl, hec] at h
      cases h
    | ok es =>
      have hec : embedChunk model c = Except.ok ((List.map Prod.fst c).zip es) := by
        simp [embedChunk, hemb]
      rw [show tryFoldChunks model (c :: cs) acc =
          match embedChunk model c with
          | Except.error e => Except.error e
          | Except.ok pairs => tryFoldChunks model cs (foldPairs acc pairs)
        from rfl, hec] at h
      rcases ih _ agg h k hk with hacc | ⟨c2, hc2, hk2⟩
      · rw [foldPairs_keys] at hacc
        rcases hacc with h3 | h3
        · exact Or.inl h3
        · right
          refine ⟨c, List.mem_cons_self _ _, ?_⟩
          rcases List.mem_map.mp h3 with ⟨q, hq, rfl⟩
          obtain ⟨a, e0⟩ := q
          have := (List.of_mem_zip hq).1
          exact this
      · exact Or.inr ⟨c2, List.mem_cons_of_mem _ hc2, hk2⟩

theorem tryFoldChunks_ok_of_total (model : EmbeddingModel)
    (hok : ∀ ts, ∃ es, model.embed_documents ts = Except.ok es) :
    ∀ (cs : List (List (Nat × String))) acc,
      ∃ agg, tryFoldChunks model cs acc = Except.ok agg := by
  intro cs
  induction cs with
  | nil => intro acc; exact ⟨acc, rfl⟩
  | cons c cs ih =>
    intro acc
    rcases hok (List.map Prod.snd c) with ⟨es, hes⟩
    have hec : embedChunk model c = Except.ok ((List.map Prod.fst c).zip es) := by
      simp [embedChunk, hes]
    rcases ih (foldPairs acc ((List.map Prod.fst c).zip es)) with ⟨agg, hagg⟩
    refine ⟨agg, ?_⟩
    rw [show tryFoldChunks model (c :: cs) acc =
        match embedChunk model c with
        | Except.error e => Except.error e
        | Except.ok pairs => tryFoldChunks model cs (foldPairs acc pairs)
      from rfl, hec]
    exact hagg

theorem build_some_ok_of_tryFold_ok {D : Type} (model : EmbeddingModel)
    (b : EmbeddingsBuilder D) (h0 : 0 < model.MAX_DOCUMENTS)
    {agg : List (Nat × OneOrMany Embedding)}
    (htf : tryFoldChunks model
      (chunkGo model.MAX_DOCUMENTS [] (flattenUnits b.documents)) [] =
      Except.ok agg) :
    ∃ res, EmbeddingsBuilder.build model b = some (Except.ok res) := by
  have hkeys : ∀ p ∈ agg, p.1 < b.documents.length := by
    intro p hp
    have hk : p.1 ∈ agg.map Prod.fst := List.mem_map.mpr ⟨p, hp, rfl⟩
    rcases tryFoldChunks_ok_keys model _ [] agg htf p.1 hk with h1 | ⟨c, hc, hkc⟩
    · simp at h1
    · rcases List.mem_map.mp hkc with ⟨q, hq, hq1⟩
      rw [← hq1]
      exact flattenUnits_fst_lt b.documents q
        (mem_of_mem_chunkGo model.MAX_DOCUMENTS h0 (flattenUnits b.documents) hc hq)
  have hps := pairResults_isSome b.documents agg hkeys
  cases hpr : pairResults b.documents agg with
  | none => rw [hpr] at hps; cases hps
  | some res =>
    refine ⟨res, ?_⟩
    simp only [EmbeddingsBuilder.build, chunkStream, if_pos h0]
    rw [htf]
    simp [hpr]

/-- C10: the final pairing step of build is panic-free: every key of the
aggregated map is an index of the same document list that built the lookup
map, so the unwrap on the lookup never fires; as long as the batch limit is
positive (the only other panic source being the zero-capacity chunks
assertion), build never panics, whatever the model returns. -/
theorem build_pairing_never_panics {D : Type} (model : EmbeddingModel)
    (b : EmbeddingsBuilder D) (h0 : 0 < model.MAX_DOCUMENTS) :
    (EmbeddingsBuilder.build model b).isSome := by
  cases htf : tryFoldChunks model
      (chunkGo model.MAX_DOCUMENTS [] (flattenUnits b.documents)) [] with
  | error e =>
    simp only [EmbeddingsBuilder.build, chunkStream, if_pos h0]
    rw [htf]
    rfl
  | ok agg =>
    rcases build_some_ok_of_tryFold_ok model b h0 htf with ⟨res, hres⟩
    rw [hres]
    rfl

/-- Witness for C10 at the spec scenario model and builder. -/
theorem build_pairing_never_panics_witness :
    (EmbeddingsBuilder.build
      ⟨4, fun ts => Except.ok (ts.map (fun t => ⟨t, [0]⟩))⟩
      (⟨[("d0", ⟨"a", ["b"]⟩), ("d1", ⟨"c", ["d"]⟩), ("d2", ⟨"e", ["f"]⟩)]⟩ :
        EmbeddingsBuilder String)).isSome :=
  build_pairing_never_panics
    ⟨4, fun ts => Except.ok (ts.map (fun t => ⟨t, [0]⟩))⟩
    ⟨[("d0", ⟨"a", ["b"]⟩), ("d1", ⟨"c", ["d"]⟩), ("d2", ⟨"e", ["f"]⟩)]⟩
    (by decide)

/-! ### Short batches are tolerated silently (C9) -/

/-- Counterexample for C9 as stated: a document with 2 fragments whose batch
call returns only 1 embedding does NOT end up with fewer embeddings than
fragments — build succeeds and attributes 2 embeddings (the single returned
one duplicated by the first-insert slip), exactly the fragment count. -/
theorem build_short_batch_counterexample :
    EmbeddingsBuilder.build
      ⟨4, fun ts => Except.ok ((ts.take 1).map (fun t => ⟨t, [0]⟩))⟩
      (⟨[("d0", ⟨"a", ["b"]⟩)]⟩ : EmbeddingsBuilder String) =
      some (Except.ok [("d0", ⟨⟨"a", [0]⟩, [⟨"a", [0]⟩]⟩)]) ∧
    OneOrMany.size (⟨⟨"a", [0]⟩, [⟨"a", [0]⟩]⟩ : OneOrMany Embedding) =
      OneOrMany.size (⟨"a", ["b"]⟩ : OneOrMany String) := by
  exact ⟨rfl, rfl⟩

/-- C9 amended: when the embedding capability returns a successful but
possibly too-short embedding list for every batch, build still returns a
successful result: the unmatched trailing work units are silently dropped
by the positional zip and no error is reported (the dropped units simply
contribute no (id, embedding) pair); because the aggregation duplicates the
first embedding of a document, an affected document does not necessarily
receive fewer embeddings than fragments. -/
theorem build_tolerates_short_batches {D : Type} (model : EmbeddingModel)
    (b : EmbeddingsBuilder D) (h0 : 0 < model.MAX_DOCUMENTS)
    (hok : ∀ ts, ∃ es, model.embed_documents ts = Except.ok es) :
    ∃ res, EmbeddingsBuilder.build model b = some (Except.ok res) := by
  rcases tryFoldChunks_ok_of_total model hok
      (chunkGo model.MAX_DOCUMENTS [] (flattenUnits b.documents)) [] with ⟨agg, htf⟩
  exact build_some_ok_of_tryFold_ok model b h0 htf

/-- Witness for C9 amended: a model that always returns at most one
embedding per batch still lets build succeed on a two-fragment document. -/
theorem build_tolerates_short_batches_witness :
    ∃ res, EmbeddingsBuilder.build
      ⟨4, fun ts => Except.ok ((ts.take 1).map (fun t => ⟨t, [0]⟩))⟩
      (⟨[("d0", ⟨"a", ["b"]⟩)]⟩ : EmbeddingsBuilder String) =
      some (Except.ok res) :=
  build_tolerates_short_batches
    ⟨4, fun ts => Except.ok ((ts.take 1).map (fun t => ⟨t, [0]⟩))⟩
    ⟨[("d0", ⟨"a", ["b"]⟩)]⟩ (by decide)
    (fun ts => ⟨(ts.take 1).map (fun t => ⟨t, [0]⟩), rfl⟩)
